import Mathlib

/-!
Verification development for an in-memory filesystem tree (`fs.rs`) and a
two-phase transaction buffer (`trans.rs`).

The tree is embedded as an arena of nodes keyed by inode number: in the
source, handles (`Kid`) are shared references to nodes, and each node's
inode is unique for the lifetime of the tree (the allocator only
increments), so an inode faithfully identifies a node and a handle is
modelled as that inode.  Mutation through a handle becomes an update of the
arena entry at that inode.  Timestamps (`atime`/`mtime`/`ctime`/`crtime`,
produced by `SystemTime::now()` in `new_attr`) are wall-clock values that
the spec puts out of scope for behavioural correctness; they are dropped
from the embedded `FileAttr`.  Byte vectors (`Vec<u8>`) are `List Nat`.
-/

/-- Node type tag, mirroring the two `fuser::FileType` variants used. -/
inductive FileType where
  | directory : FileType
  | regularFile : FileType
deriving DecidableEq, Repr

/-- Constant `OWNER_UID` from fs.rs. -/
def OWNER_UID : Nat := 0

/-- Constant `OWNER_GID` from fs.rs. -/
def OWNER_GID : Nat := 55

/-- Constant `DIR_PERM = 0o550` from fs.rs. -/
def DIR_PERM : Nat := 0o550

/-- Constant `FILE_PERM = 0o440` from fs.rs. -/
def FILE_PERM : Nat := 0o440

/-- Attributes of a node (`fuser::FileAttr` as filled in by `new_attr`),
without the wall-clock timestamp fields. -/
structure FileAttr where
  ino : Nat
  kind : FileType
  perm : Nat
  nlink : Nat
  uid : Nat
  gid : Nat
  blksize : Nat
  size : Nat
  blocks : Nat
  rdev : Nat
  flags : Nat
deriving DecidableEq, Repr

/-- Port of `new_attr` in fs.rs (timestamp fields omitted, see above). -/
def new_attr (ino : Nat) (kind : FileType) (perm : Nat) (nlink : Nat) : FileAttr :=
  FileAttr.mk ino kind perm nlink OWNER_UID OWNER_GID 512 0 0 0 0

/-- A tree node: either a `Dir` (attributes plus a child-name map whose
values are handles, i.e. inode ids) or a `File` (attributes plus payload).
This is the closed variant set behind the `Elem`/`DispElem` trait objects. -/
inductive Node where
  | dir : FileAttr → List (String × Nat) → Node
  | file : FileAttr → String → Node
deriving DecidableEq, Repr

/-- Whether a node is a directory (the `to_dir`/`to_mut_dir` success test). -/
def Node.isDir : Node → Bool
  | Node.dir _ _ => true
  | Node.file _ _ => false

/-- Attributes of a node (`Elem::get_attr`). -/
def Node.attr : Node → FileAttr
  | Node.dir a _ => a
  | Node.file a _ => a

/-- Lookup in a child-name map (`HashMap::get`). -/
def kidsGet (kids : List (String × Nat)) (name : String) : Option Nat :=
  (kids.find? (fun e => e.1 == name)).map (fun e => e.2)

/-- Insertion into a child-name map (`HashMap::insert`): overwrites any
existing entry under the same name. -/
def kidsInsert (kids : List (String × Nat)) (name : String) (id : Nat) :
    List (String × Nat) :=
  (name, id) :: kids.filter (fun e => e.1 != name)

/-- Lookup of a node by handle in the arena. -/
def arenaGet (nodes : List (Nat × Node)) (id : Nat) : Option Node :=
  (nodes.find? (fun e => e.1 == id)).map (fun e => e.2)

/-- Store a node under a handle in the arena (replacing any previous
entry for that handle). -/
def arenaSet (nodes : List (Nat × Node)) (id : Nat) (n : Node) :
    List (Nat × Node) :=
  (id, n) :: nodes.filter (fun e => e.1 != id)

/-- Port of `Dir::new`: an empty directory with the given inode. -/
def dirNew (ino : Nat) : Node :=
  Node.dir (new_attr ino FileType.directory DIR_PERM 2) []

/-- Port of `File::new`: a file with the given inode and payload. -/
def fileNew (ino : Nat) (dat : String) : Node :=
  Node.file (new_attr ino FileType.regularFile FILE_PERM 1) dat

/-- The filesystem state (`struct Fs`): the inode allocator, the root
handle, and the arena holding every live node. -/
structure Fs where
  inode_alloc : Nat
  root : Nat
  nodes : List (Nat × Node)
deriving DecidableEq, Repr

/-- Port of `Fs::new`: a tree holding only a root directory with inode 1,
allocator primed at 1 (so the next `alloc_inode` yields 2). -/
def Fs.new : Fs :=
  Fs.mk 1 1 [(1, dirNew 1)]

/-- Node lookup through a handle. -/
def Fs.getNode (fs : Fs) (id : Nat) : Option Node :=
  arenaGet fs.nodes id

/-- Port of `Fs::new_file`.  Returns the handle of the created node (or
`none` when `parent` is not a directory) together with the resulting
state; on failure the state is returned unchanged, and in particular
`alloc_inode` has not run (in the source the `to_mut_dir()?` early return
happens before the allocator is touched). -/
def Fs.new_file (fs : Fs) (parent : Nat) (name : String) (dat : String) :
    Option Nat × Fs :=
  match fs.getNode parent with
  | some (Node.dir a kids) =>
    let ino := fs.inode_alloc + 1
    let nodes' := arenaSet (arenaSet fs.nodes parent
        (Node.dir a (kidsInsert kids name ino))) ino (fileNew ino dat)
    (some ino, Fs.mk ino fs.root nodes')
  | _ => (none, fs)

/-- Port of `Fs::new_dir`, identical to `new_file` but producing an empty
directory node. -/
def Fs.new_dir (fs : Fs) (parent : Nat) (name : String) : Option Nat × Fs :=
  match fs.getNode parent with
  | some (Node.dir a kids) =>
    let ino := fs.inode_alloc + 1
    let nodes' := arenaSet (arenaSet fs.nodes parent
        (Node.dir a (kidsInsert kids name ino))) ino (dirNew ino)
    (some ino, Fs.mk ino fs.root nodes')
  | _ => (none, fs)

/-- The loop body of `Fs::walk`, one segment at a time.  `parents` is the
call-local parent stack and `cur` the current handle.  For specification
purposes the traversal returns the final parent stack alongside the final
handle; `Fs.walk` projects the handle. -/
def walkGo (fs : Fs) : List String → List Nat → Nat → Option (Nat × List Nat)
  | [], parents, cur => some (cur, parents)
  | comp :: rest, parents, cur =>
    if comp.length = 0 then walkGo fs rest parents cur
    else
      match fs.getNode cur with
      | some (Node.dir _ kids) =>
        if comp = "." then walkGo fs rest parents cur
        else if comp = ".." then
          match parents with
          | p :: ps => walkGo fs rest ps p
          | [] => walkGo fs rest [] cur
        else
          match kidsGet kids comp with
          | some kid => walkGo fs rest (cur :: parents) kid
          | none => none
      | _ => none

/-- Resolution from an arbitrary starting handle (the `start` of the
spec's `resolve`; in the source `Fs::walk` fixes the starting `cur` to
the tree root). -/
def Fs.walkFrom (fs : Fs) (start : Nat) (comps : List String) : Option Nat :=
  (walkGo fs comps [] start).map (fun r => r.1)

/-- Port of `Fs::walk`: resolution starting from the root handle. -/
def Fs.walk (fs : Fs) (comps : List String) : Option Nat :=
  fs.walkFrom fs.root comps

/-- Port of `split_path`: split on the `/` character and drop empty
components.  The split is taken over the string's character list (which is
what `str::split('/')` iterates over). -/
def split_path (path : String) : List String :=
  ((path.data.splitOn '/').map (fun cs => String.mk cs)).filter
    (fun comp => comp.length > 0)

/-- The transaction buffer (`struct Trans` in trans.rs, spelled out as
`Transaction` here because `Trans` is taken by a core class): buffered
argument records and the response byte sequence. -/
structure Transaction where
  args : List (List Nat)
  resp : List Nat
deriving DecidableEq, Repr

/-- Port of `Trans::new`. -/
def Transaction.new : Transaction :=
  Transaction.mk [] []

/-- Port of `Trans::arg_mode`: true while the response is empty. -/
def Transaction.arg_mode (t : Transaction) : Bool :=
  t.resp.length = 0

/-- Port of `Trans::add_arg`: append one argument record. -/
def Transaction.add_arg (t : Transaction) (dat : List Nat) : Transaction :=
  Transaction.mk (t.args ++ [dat]) t.resp

/-- Port of `Trans::take_args`: when at least `n` records are buffered,
take all of them out (`mem::take`), truncate to the first `n` and return
those; otherwise return `none` and leave the buffer untouched. -/
def Transaction.take_args (t : Transaction) (n : Nat) : Option (List (List Nat)) × Transaction :=
  if t.args.length ≥ n then
    (some ((t.args).take n), Transaction.mk [] t.resp)
  else
    (none, t)

/-- Port of `Trans::set_resp`: extend the response with `dat`. -/
def Transaction.set_resp (t : Transaction) (dat : List Nat) : Transaction :=
  Transaction.mk t.args (t.resp ++ dat)

/-- Port of `Trans::read_resp`: split off `min n (length resp)` bytes from
the front of the response, returning them and keeping the tail. -/
def Transaction.read_resp (t : Transaction) (n : Nat) : List Nat × Transaction :=
  let m := min n t.resp.length
  (t.resp.take m, Transaction.mk t.args (t.resp.drop m))

/-- Bytes of an ASCII string, for stating the spec's scenarios. -/
def strBytes (s : String) : List Nat :=
  s.data.map Char.toNat

/-!
Scripts of creation calls.  A script is a list of `create_dir`/`create_file`
calls where each call names its parent by the position of a previously
returned handle (position 0 is the root handle, position `i + 1` the handle
returned by the `i`-th successful call).  This models "every sequence of
`create_dir`/`create_file` calls performed on the tree" from the spec.
-/

/-- One creation call of a script: `isDir` selects `new_dir` over
`new_file`, `parent` is the position of the parent handle among the
handles obtained so far, `dat` is the payload (ignored by `new_dir`). -/
structure Op where
  isDir : Bool
  parent : Nat
  name : String
  dat : String
deriving DecidableEq, Repr

/-- State of a running script: the filesystem and the handles returned so
far (position 0 holds the root handle). -/
structure ScriptState where
  fs : Fs
  handles : List Nat
deriving DecidableEq, Repr

/-- Execute one creation call.  A call whose parent position is out of
range, or whose parent is not a directory, leaves the state as the source
would (no handle is returned, the tree keeps the failure-side state). -/
def runOp (s : ScriptState) (op : Op) : ScriptState :=
  match s.handles[op.parent]? with
  | none => s
  | some p =>
    let r := if op.isDir then s.fs.new_dir p op.name else s.fs.new_file p op.name op.dat
    match r.1 with
    | none => ScriptState.mk r.2 s.handles
    | some h => ScriptState.mk r.2 (s.handles ++ [h])

/-- The state a script starts from: a fresh tree and its root handle. -/
def initState : ScriptState :=
  ScriptState.mk Fs.new [Fs.new.root]

/-- Execute a whole script from the fresh-tree state. -/
def runScript (ops : List Op) : ScriptState :=
  ops.foldl runOp initState

/-- Fuelled form of `creationPath`; the fuel only has to dominate the
handle position, which `creationPath` arranges. -/
def creationPathAux (ops : List Op) : Nat → Nat → List String
  | 0, _ => []
  | _ + 1, 0 => []
  | fuel + 1, i + 1 =>
    match ops[i]? with
    | none => []
    | some op =>
      if op.parent ≤ i then creationPathAux ops fuel op.parent ++ [op.name]
      else []

/-- The sequence of names under which the node at handle position `i` was
created, starting from the root: the creation path of its parent followed
by its own name (the root's creation path is empty). -/
def creationPath (ops : List Op) (i : Nat) : List String :=
  creationPathAux ops i i

/-- A name under which resolution can find a created node again: non-empty
and none of the special components `.` and `..`. -/
def normalName (name : String) : Bool :=
  (name.length != 0) && (name != ".") && (name != "..")

/-- Well-formedness of a script from a given state: every call addresses
an existing handle position whose node is a directory, uses a normal name,
and never overwrites an existing child name. -/
def wfFrom (s : ScriptState) : List Op → Bool
  | [] => true
  | op :: rest =>
    match s.handles[op.parent]? with
    | none => false
    | some p =>
      match s.fs.getNode p with
      | some (Node.dir _ kids) =>
        normalName op.name && (kidsGet kids op.name).isNone &&
          wfFrom (runOp s op) rest
      | _ => false

/-- Every child handle stored in a node is at most `b`. -/
def nodeBounded (b : Nat) : Node → Prop
  | Node.dir _ kids => ∀ e ∈ kids, e.2 ≤ b
  | Node.file _ _ => True

/-- Every handle occurring in the tree (the root, the arena keys, and all
child entries) is at most the allocator value; this holds for every state
the source can reach because handles are only ever minted by the
allocator. -/
def fsBounded (fs : Fs) : Prop :=
  fs.root ≤ fs.inode_alloc ∧
    ∀ e ∈ fs.nodes, e.1 ≤ fs.inode_alloc ∧ nodeBounded fs.inode_alloc e.2

/-- The state a successful `new_file`/`new_dir` call produces: allocator
bumped, the parent's child map updated under `name`, and the fresh node
stored; `nnode` is the created node (`fileNew`/`dirNew`). -/
def createdFs (fs : Fs) (p : Nat) (a : FileAttr) (kids : List (String × Nat))
    (name : String) (nnode : Node) : Fs :=
  Fs.mk (fs.inode_alloc + 1) fs.root
    (arenaSet (arenaSet fs.nodes p
        (Node.dir a (kidsInsert kids name (fs.inode_alloc + 1))))
      (fs.inode_alloc + 1) nnode)

/-- Invariant carried along a script run: the state is handle-bounded,
one handle exists per executed call plus the root, handles never exceed
the allocator, and every handle is reached again by walking its creation
path from the root. -/
def scriptInv (ops : List Op) (s : ScriptState) : Prop :=
  fsBounded s.fs ∧ s.handles.length = ops.length + 1 ∧
  (∀ h ∈ s.handles, h ≤ s.fs.inode_alloc) ∧
  (∀ i h, s.handles[i]? = some h →
    ∃ stk, walkGo s.fs (creationPath ops i) [] s.fs.root = some (h, stk))

theorem find_filter_ne {α β : Type} [BEq α] [LawfulBEq α]
    (l : List (α × β)) (i j : α) (hj : j ≠ i) :
    (l.filter (fun e => e.1 != i)).find? (fun e => e.1 == j) =
      l.find? (fun e => e.1 == j) := by
  have hij : (i == j) = false := beq_eq_false_iff_ne.mpr (Ne.symm hj)
  induction l with
  | nil => rfl
  | cons e t ih =>
    by_cases he : e.1 = i
    · have hne : (e.1 != i) = false := by simp [he]
      have hej : (e.1 == j) = false := by
        rw [he]; exact hij
      simp [List.filter_cons, List.find?_cons, hne, hej, ih]
    · have hne : (e.1 != i) = true := by simp [he]
      by_cases hej : e.1 = j
      · have hbj : (e.1 == j) = true := by simp [hej]
        simp [List.filter_cons, List.find?_cons, hne, hbj]
      · have hbj : (e.1 == j) = false := by simp [hej]
        simp [List.filter_cons, List.find?_cons, hne, hbj, ih]

theorem arenaGet_set (nodes : List (Nat × Node)) (i j : Nat) (n : Node) :
    arenaGet (arenaSet nodes i n) j = if j = i then some n else arenaGet nodes j := by
  unfold arenaGet arenaSet
  by_cases hj : j = i
  · subst hj
    simp [List.find?_cons]
  · have hij : (i == j) = false := beq_eq_false_iff_ne.mpr (Ne.symm hj)
    simp [List.find?_cons, hij, hj, find_filter_ne nodes i j hj]

theorem kidsGet_insert (kids : List (String × Nat)) (name nm : String) (id : Nat) :
    kidsGet (kidsInsert kids name id) nm =
      if nm = name then some id else kidsGet kids nm := by
  unfold kidsGet kidsInsert
  by_cases hj : nm = name
  · subst hj
    simp [List.find?_cons]
  · have hij : (name == nm) = false := beq_eq_false_iff_ne.mpr (Ne.symm hj)
    simp [List.find?_cons, hij, hj, find_filter_ne kids name nm hj]

theorem arenaGet_mem (nodes : List (Nat × Node)) (id : Nat) (n : Node)
    (h : arenaGet nodes id = some n) : (id, n) ∈ nodes := by
  unfold arenaGet at h
  cases hf : nodes.find? (fun e => e.1 == id) with
  | none => rw [hf] at h; cases h
  | some e =>
    have hm := List.mem_of_find?_eq_some hf
    have hpred := List.find?_some hf
    rw [hf] at h
    cases e with
    | mk k v =>
      have hk : k = id := by simpa using hpred
      have hv : v = n := by simpa using h
      rw [hk, hv] at hm
      exact hm

theorem kidsGet_mem (kids : List (String × Nat)) (name : String) (id : Nat)
    (h : kidsGet kids name = some id) : ∃ e ∈ kids, e.2 = id := by
  unfold kidsGet at h
  cases hf : kids.find? (fun e => e.1 == name) with
  | none => rw [hf] at h; cases h
  | some e =>
    have hm := List.mem_of_find?_eq_some hf
    rw [hf] at h
    exact ⟨e, hm, by simpa using h⟩

theorem nodeBounded_mono {b b' : Nat} (h : b ≤ b') (n : Node)
    (hn : nodeBounded b n) : nodeBounded b' n := by
  cases n with
  | dir a kids =>
    simp only [nodeBounded] at hn ⊢
    intro e he
    exact le_trans (hn e he) h
  | file a d => trivial

theorem mem_arenaSet (nodes : List (Nat × Node)) (i : Nat) (n : Node)
    (e : Nat × Node) (he : e ∈ arenaSet nodes i n) : e = (i, n) ∨ e ∈ nodes := by
  unfold arenaSet at he
  rcases List.mem_cons.mp he with he | he
  · exact Or.inl he
  · exact Or.inr (List.mem_filter.mp he).1

theorem mem_kidsInsert (kids : List (String × Nat)) (name : String) (id : Nat)
    (e : String × Nat) (he : e ∈ kidsInsert kids name id) :
    e = (name, id) ∨ e ∈ kids := by
  unfold kidsInsert at he
  rcases List.mem_cons.mp he with he | he
  · exact Or.inl he
  · exact Or.inr (List.mem_filter.mp he).1

theorem new_file_eq (fs : Fs) (p : Nat) (name dat : String) (a : FileAttr)
    (kids : List (String × Nat)) (hp : fs.getNode p = some (Node.dir a kids)) :
    fs.new_file p name dat =
      (some (fs.inode_alloc + 1),
        createdFs fs p a kids name (fileNew (fs.inode_alloc + 1) dat)) := by
  simp [Fs.new_file, hp, createdFs]

theorem new_dir_eq (fs : Fs) (p : Nat) (name : String) (a : FileAttr)
    (kids : List (String × Nat)) (hp : fs.getNode p = some (Node.dir a kids)) :
    fs.new_dir p name =
      (some (fs.inode_alloc + 1),
        createdFs fs p a kids name (dirNew (fs.inode_alloc + 1))) := by
  simp [Fs.new_dir, hp, createdFs]

theorem createdFs_getNode (fs : Fs) (p : Nat) (a : FileAttr)
    (kids : List (String × Nat)) (name : String) (nnode : Node) (j : Nat) :
    (createdFs fs p a kids name nnode).getNode j =
      if j = fs.inode_alloc + 1 then some nnode
      else if j = p then
        some (Node.dir a (kidsInsert kids name (fs.inode_alloc + 1)))
      else fs.getNode j := by
  simp [createdFs, Fs.getNode, arenaGet_set]

theorem createdFs_bounded (fs : Fs) (p : Nat) (a : FileAttr)
    (kids : List (String × Nat)) (name : String) (nnode : Node)
    (hb : fsBounded fs) (hp : fs.getNode p = some (Node.dir a kids))
    (hnb : nodeBounded (fs.inode_alloc + 1) nnode) :
    fsBounded (createdFs fs p a kids name nnode) := by
  obtain ⟨hroot, hmem⟩ := hb
  have hpdir : (p, Node.dir a kids) ∈ fs.nodes := arenaGet_mem _ _ _ hp
  constructor
  · simp only [createdFs]
    omega
  · intro e he
    simp only [createdFs] at he ⊢
    rcases mem_arenaSet _ _ _ _ he with rfl | he2
    · exact ⟨le_refl _, hnb⟩
    · rcases mem_arenaSet _ _ _ _ he2 with rfl | he3
      · constructor
        · exact le_trans (hmem _ hpdir).1 (Nat.le_succ _)
        · simp only [nodeBounded]
          intro e2 he2m
          rcases mem_kidsInsert _ _ _ _ he2m with rfl | hin
          · exact le_refl _
          · have hk := (hmem _ hpdir).2
            simp only [nodeBounded] at hk
            exact le_trans (hk e2 hin) (Nat.le_succ _)
      · obtain ⟨h1, h2⟩ := hmem e he3
        exact ⟨le_trans h1 (Nat.le_succ _), nodeBounded_mono (Nat.le_succ _) _ h2⟩

theorem walkGo_append (fs : Fs) (l₁ l₂ : List String) (parents : List Nat) (cur : Nat) :
    walkGo fs (l₁ ++ l₂) parents cur =
      (walkGo fs l₁ parents cur).bind (fun r => walkGo fs l₂ r.2 r.1) := by
  induction l₁ generalizing parents cur with
  | nil => simp [walkGo]
  | cons comp rest ih =>
    simp only [List.cons_append, walkGo]
    by_cases hc : comp.length = 0
    · simp [hc, ih]
    · simp only [hc, if_false]
      cases hg : fs.getNode cur with
      | none => simp
      | some n =>
        cases n with
        | file a0 d0 => simp
        | dir a0 kids0 =>
          by_cases h1 : comp = "."
          · simp [h1, ih]
          · by_cases h2 : comp = ".."
            · simp only [h1, h2, if_false, if_true]
              cases parents with
              | nil => simp [ih]
              | cons q qs => simp [ih]
            · simp only [h1, h2, if_false]
              cases hk : kidsGet kids0 comp with
              | none => simp
              | some kid => simp [ih]

theorem getNode_createdFs_dir (fs : Fs) (p : Nat) (a : FileAttr)
    (kids : List (String × Nat)) (name : String) (nnode : Node)
    (hfresh : kidsGet kids name = none)
    (hp : fs.getNode p = some (Node.dir a kids))
    (cur : Nat) (a0 : FileAttr) (kids0 : List (String × Nat))
    (hg : fs.getNode cur = some (Node.dir a0 kids0))
    (hne : cur ≠ fs.inode_alloc + 1) :
    ∃ kids2, (createdFs fs p a kids name nnode).getNode cur =
        some (Node.dir a0 kids2) ∧
      ∀ c kid, kidsGet kids0 c = some kid → kidsGet kids2 c = some kid := by
  by_cases hcp : cur = p
  · subst hcp
    have heq : Node.dir a kids = Node.dir a0 kids0 :=
      Option.some.inj (hp.symm.trans hg)
    have ha : a = a0 := by cases heq; rfl
    have hkk : kids = kids0 := by cases heq; rfl
    subst ha
    subst hkk
    refine ⟨kidsInsert kids name (fs.inode_alloc + 1), ?_, ?_⟩
    · rw [createdFs_getNode]
      simp [hne]
    · intro c kid hkc
      rw [kidsGet_insert]
      have hcn : c ≠ name := by
        intro hcn
        rw [hcn, hfresh] at hkc
        cases hkc
      simp [hcn, hkc]
  · refine ⟨kids0, ?_, fun c kid hh => hh⟩
    rw [createdFs_getNode]
    simp [hne, hcp, hg]

theorem walkGo_createdFs (fs : Fs) (p : Nat) (a : FileAttr)
    (kids : List (String × Nat)) (name : String) (nnode : Node)
    (hb : fsBounded fs)
    (hp : fs.getNode p = some (Node.dir a kids))
    (hfresh : kidsGet kids name = none) :
    ∀ comps parents cur res,
      cur ≤ fs.inode_alloc → (∀ x ∈ parents, x ≤ fs.inode_alloc) →
      walkGo fs comps parents cur = some res →
      walkGo (createdFs fs p a kids name nnode) comps parents cur = some res := by
  intro comps
  induction comps with
  | nil =>
    intro parents cur res _ _ hw
    exact hw
  | cons comp rest ih =>
    intro parents cur res hcur hpar hw
    simp only [walkGo] at hw ⊢
    by_cases hc : comp.length = 0
    · rw [if_pos hc] at hw ⊢
      exact ih parents cur res hcur hpar hw
    · rw [if_neg hc] at hw ⊢
      cases hg : fs.getNode cur with
      | none => simp only [hg] at hw; exact Option.noConfusion hw
      | some n =>
        cases n with
        | file a0 d0 => simp only [hg] at hw; exact Option.noConfusion hw
        | dir a0 kids0 =>
          simp only [hg] at hw
          have hcur_ne : cur ≠ fs.inode_alloc + 1 := by omega
          obtain ⟨kids2, hg2, hsub⟩ :=
            getNode_createdFs_dir fs p a kids name nnode hfresh hp cur a0 kids0 hg hcur_ne
          simp only [hg2]
          by_cases h1 : comp = "."
          · rw [if_pos h1] at hw ⊢
            exact ih parents cur res hcur hpar hw
          · rw [if_neg h1] at hw ⊢
            by_cases h2 : comp = ".."
            · rw [if_pos h2] at hw ⊢
              cases parents with
              | nil => exact ih [] cur res hcur hpar hw
              | cons q qs =>
                exact ih qs q res (hpar q (List.mem_cons_self _ _))
                  (fun x hx => hpar x (List.mem_cons_of_mem _ hx)) hw
            · rw [if_neg h2] at hw ⊢
              cases hk : kidsGet kids0 comp with
              | none => simp only [hk] at hw; exact Option.noConfusion hw
              | some kid =>
                simp only [hk] at hw
                simp only [hsub comp kid hk]
                have hkid : kid ≤ fs.inode_alloc := by
                  have hcm : (cur, Node.dir a0 kids0) ∈ fs.nodes := arenaGet_mem _ _ _ hg
                  have hnb := (hb.2 _ hcm).2
                  simp only [nodeBounded] at hnb
                  obtain ⟨e, hem, he2⟩ := kidsGet_mem kids0 comp kid hk
                  rw [← he2]
                  exact hnb e hem
                exact ih (cur :: parents) kid res hkid
                  (fun x hx => by
                    rcases List.mem_cons.mp hx with rfl | hx
                    · exact hcur
                    · exact hpar x hx) hw

theorem wfFrom_cons (s : ScriptState) (op : Op) (rest : List Op) :
    wfFrom s (op :: rest) =
      (match s.handles[op.parent]? with
       | none => false
       | some p =>
         match s.fs.getNode p with
         | some (Node.dir _ kids) =>
           normalName op.name && (kidsGet kids op.name).isNone &&
             wfFrom (runOp s op) rest
         | _ => false) := rfl

theorem wfFrom_append (s : ScriptState) (l₁ l₂ : List Op) :
    wfFrom s (l₁ ++ l₂) = (wfFrom s l₁ && wfFrom (l₁.foldl runOp s) l₂) := by
  induction l₁ generalizing s with
  | nil => simp [wfFrom]
  | cons op rest ih =>
    rw [List.cons_append, wfFrom_cons, wfFrom_cons, List.foldl_cons]
    cases hh : s.handles[op.parent]? with
    | none => simp
    | some p =>
      cases hg : s.fs.getNode p with
      | none => simp [hg]
      | some n =>
        cases n with
        | dir a kids => simp [hg, ih, Bool.and_assoc]
        | file a d => simp [hg]

theorem runScript_append (l : List Op) (op : Op) :
    runScript (l ++ [op]) = runOp (runScript l) op := by
  simp [runScript, List.foldl_append]

theorem creationPathAux_fuel (ops : List Op) :
    ∀ fuel i, i ≤ fuel →
      creationPathAux ops (fuel + 1) i = creationPathAux ops fuel i := by
  intro fuel
  induction fuel with
  | zero =>
    intro i hi
    interval_cases i
    rfl
  | succ f ihf =>
    intro i hi
    cases i with
    | zero => rfl
    | succ j =>
      have hj : j ≤ f := by omega
      cases hoj : ops[j]? with
      | none => simp [creationPathAux, hoj]
      | some op =>
        by_cases hop : op.parent ≤ j
        · simp only [creationPathAux, hoj, if_pos hop]
          rw [ihf op.parent (le_trans hop hj)]
        · simp only [creationPathAux, hoj, if_neg hop]

theorem creationPathAux_eq_creationPath (ops : List Op) :
    ∀ fuel i, i ≤ fuel → creationPathAux ops fuel i = creationPath ops i := by
  intro fuel
  induction fuel with
  | zero =>
    intro i hi
    interval_cases i
    rfl
  | succ f ihf =>
    intro i hi
    rcases Nat.lt_or_ge i (f + 1) with h | h
    · rw [creationPathAux_fuel ops f i (by omega)]
      exact ihf i (by omega)
    · have hif : i = f + 1 := by omega
      subst hif
      rfl

theorem creationPath_succ (ops : List Op) (i : Nat) (op : Op)
    (hop : ops[i]? = some op) (hpar : op.parent ≤ i) :
    creationPath ops (i + 1) = creationPath ops op.parent ++ [op.name] := by
  show creationPathAux ops (i + 1) (i + 1) = _
  simp only [creationPathAux, hop, if_pos hpar]
  rw [creationPathAux_eq_creationPath ops i op.parent hpar]

theorem creationPathAux_extend (l₁ l₂ : List Op) :
    ∀ fuel i, i ≤ l₁.length →
      creationPathAux (l₁ ++ l₂) fuel i = creationPathAux l₁ fuel i := by
  intro fuel
  induction fuel with
  | zero => intro i _; rfl
  | succ f ihf =>
    intro i hi
    cases i with
    | zero => rfl
    | succ j =>
      have hj : j < l₁.length := by omega
      cases hoj : l₁[j]? with
      | none =>
        have hoj2 : (l₁ ++ l₂)[j]? = none := by
          rw [List.getElem?_append_left hj]
          exact hoj
        simp [creationPathAux, hoj, hoj2]
      | some op =>
        have hoj2 : (l₁ ++ l₂)[j]? = some op := by
          rw [List.getElem?_append_left hj]
          exact hoj
        by_cases hop : op.parent ≤ j
        · simp only [creationPathAux, hoj, hoj2, if_pos hop]
          rw [ihf op.parent (by omega)]
        · simp only [creationPathAux, hoj, hoj2, if_neg hop]

theorem creationPath_extend (l₁ l₂ : List Op) (i : Nat) (hi : i ≤ l₁.length) :
    creationPath (l₁ ++ l₂) i = creationPath l₁ i :=
  creationPathAux_extend l₁ l₂ i i hi

theorem normalName_spec (nm : String) (h : normalName nm = true) :
    ¬nm.length = 0 ∧ ¬nm = "." ∧ ¬nm = ".." := by
  simp [normalName] at h
  obtain ⟨⟨h1, h2⟩, h3⟩ := h
  exact ⟨by omega, h2, h3⟩

theorem script_invariant (ops : List Op) (hwf : wfFrom initState ops = true) :
    scriptInv ops (runScript ops) := by
  induction ops using List.reverseRecOn with
  | nil =>
    refine ⟨⟨le_refl 1, ?_⟩, rfl, ?_, ?_⟩
    · intro e he
      simp only [runScript, List.foldl_nil, initState, Fs.new] at he ⊢
      obtain rfl := List.mem_singleton.mp he
      exact ⟨le_refl 1, by simp [nodeBounded, dirNew]⟩
    · intro h hh
      simp only [runScript, List.foldl_nil, initState, Fs.new] at hh ⊢
      obtain rfl := List.mem_singleton.mp hh
      exact le_refl 1
    · intro i h hi
      cases i with
      | zero =>
        simp only [runScript, List.foldl_nil, initState, Fs.new] at hi ⊢
        obtain rfl : h = Fs.new.root := by simpa using hi.symm
        exact ⟨[], rfl⟩
      | succ j =>
        simp only [runScript, List.foldl_nil, initState] at hi
        simp at hi
  | append_singleton l op ih =>
    rw [wfFrom_append] at hwf
    obtain ⟨hwl, hwop⟩ : wfFrom initState l = true ∧
        wfFrom (l.foldl runOp initState) [op] = true := by
      simpa using hwf
    obtain ⟨hbnd, hlen, hble, hwalk⟩ := ih hwl
    have hs : l.foldl runOp initState = runScript l := rfl
    rw [hs] at hwop
    rw [wfFrom_cons] at hwop
    cases hh : (runScript l).handles[op.parent]? with
    | none => simp only [hh] at hwop; cases hwop
    | some p =>
      simp only [hh] at hwop
      cases hg : (runScript l).fs.getNode p with
      | none => simp only [hg] at hwop; cases hwop
      | some n =>
        cases n with
        | file a d => simp only [hg] at hwop; cases hwop
        | dir a kids =>
          simp only [hg] at hwop
          obtain ⟨hnn, hfresh, -⟩ : normalName op.name = true ∧
              kidsGet kids op.name = none ∧
              wfFrom (runOp (runScript l) op) [] = true := by
            simpa [Bool.and_assoc] using hwop
          obtain ⟨hn0, hn1, hn2⟩ := normalName_spec op.name hnn
          have hple : p ≤ (runScript l).fs.inode_alloc :=
            hble p (List.getElem?_mem hh)
          have hilen : op.parent < (runScript l).handles.length := by
            rcases List.getElem?_eq_some.mp hh with ⟨hlt, -⟩
            exact hlt
          have hrootle : (runScript l).fs.root ≤ (runScript l).fs.inode_alloc :=
            hbnd.1
          have main : ∀ nnode, nodeBounded ((runScript l).fs.inode_alloc + 1) nnode →
              scriptInv (l ++ [op]) (ScriptState.mk
                (createdFs (runScript l).fs p a kids op.name nnode)
                ((runScript l).handles ++ [(runScript l).fs.inode_alloc + 1])) := by
            intro nnode hnb
            refine ⟨createdFs_bounded _ _ _ _ _ _ hbnd hg hnb, ?_, ?_, ?_⟩
            · simp [hlen]
            · intro h hm
              simp only [createdFs]
              rcases List.mem_append.mp hm with hm | hm
              · exact le_trans (hble h hm) (Nat.le_succ _)
              · obtain rfl := List.mem_singleton.mp hm
                exact le_refl _
            · intro i h hi
              have hroot2 : (createdFs (runScript l).fs p a kids op.name nnode).root =
                  (runScript l).fs.root := rfl
              by_cases hilt : i < (runScript l).handles.length
              · rw [List.getElem?_append_left hilt] at hi
                obtain ⟨stk, hwk⟩ := hwalk i h hi
                have hipre : i ≤ l.length := by omega
                rw [creationPath_extend l [op] i hipre]
                refine ⟨stk, ?_⟩
                simp only [hroot2]
                exact walkGo_createdFs _ _ _ _ _ _ hbnd hg hfresh _ _ _ _
                  hrootle (by intro x hx; cases hx) hwk
              · by_cases hieq : i = (runScript l).handles.length
                · subst hieq
                  rw [List.getElem?_concat_length] at hi
                  obtain rfl : (runScript l).fs.inode_alloc + 1 = h :=
                    Option.some.inj hi
                  have hieq2 : (runScript l).handles.length = l.length + 1 := hlen
                  rw [hieq2]
                  have hpar2 : op.parent ≤ l.length := by omega
                  have hcp : creationPath (l ++ [op]) (l.length + 1) =
                      creationPath l op.parent ++ [op.name] := by
                    rw [creationPath_succ (l ++ [op]) l.length op
                      (List.getElem?_concat_length l op) hpar2]
                    rw [creationPath_extend l [op] op.parent hpar2]
                  rw [hcp]
                  obtain ⟨stkp, hwp⟩ := hwalk op.parent p hh
                  have hwp2 := walkGo_createdFs _ _ _ _ _ nnode hbnd hg hfresh _ _ _ _
                    hrootle (by intro x hx; cases hx) hwp
                  refine ⟨p :: stkp, ?_⟩
                  simp only [hroot2]
                  rw [walkGo_append, hwp2]
                  show walkGo (createdFs (runScript l).fs p a kids op.name nnode)
                    [op.name] stkp p =
                      some ((runScript l).fs.inode_alloc + 1, p :: stkp)
                  have hpne : p ≠ (runScript l).fs.inode_alloc + 1 := by omega
                  have hgp2 : (createdFs (runScript l).fs p a kids op.name
                      nnode).getNode p = some (Node.dir a (kidsInsert kids op.name
                        ((runScript l).fs.inode_alloc + 1))) := by
                    rw [createdFs_getNode]
                    simp [hpne]
                  have hkg : kidsGet (kidsInsert kids op.name
                      ((runScript l).fs.inode_alloc + 1)) op.name =
                        some ((runScript l).fs.inode_alloc + 1) := by
                    rw [kidsGet_insert]
                    simp
                  simp only [walkGo, if_neg hn0, hgp2, if_neg hn1, if_neg hn2, hkg]
                · have : (runScript l).handles.length + 1 ≤ i := by omega
                  rw [List.getElem?_eq_none (by simp; omega)] at hi
                  cases hi
          rw [runScript_append]
          simp only [runOp, hh]
          cases hd : op.isDir with
          | true =>
            rw [new_dir_eq _ _ _ _ _ hg]
            exact main (dirNew ((runScript l).fs.inode_alloc + 1))
              (by simp [nodeBounded, dirNew])
          | false =>
            rw [new_file_eq _ _ _ _ _ _ hg]
            exact main (fileNew ((runScript l).fs.inode_alloc + 1) op.dat)
              (by simp [nodeBounded, fileNew])

theorem create_alloc_cases (fs : Fs) (p : Nat) (name dat : String) :
    (fs.new_file p name dat = (none, fs) ∨
      fs.new_file p name dat =
          (some (fs.inode_alloc + 1), (fs.new_file p name dat).2) ∧
        (fs.new_file p name dat).2.inode_alloc = fs.inode_alloc + 1) ∧
    (fs.new_dir p name = (none, fs) ∨
      fs.new_dir p name =
          (some (fs.inode_alloc + 1), (fs.new_dir p name).2) ∧
        (fs.new_dir p name).2.inode_alloc = fs.inode_alloc + 1) := by
  cases hg : fs.getNode p with
  | none =>
    exact ⟨Or.inl (by simp [Fs.new_file, hg]), Or.inl (by simp [Fs.new_dir, hg])⟩
  | some n =>
    cases n with
    | file a d =>
      exact ⟨Or.inl (by simp [Fs.new_file, hg]), Or.inl (by simp [Fs.new_dir, hg])⟩
    | dir a kids =>
      refine ⟨Or.inr ?_, Or.inr ?_⟩
      · rw [new_file_eq _ _ _ _ _ _ hg]
        exact ⟨rfl, rfl⟩
      · rw [new_dir_eq _ _ _ _ _ hg]
        exact ⟨rfl, rfl⟩

theorem runOp_cases (s : ScriptState) (op : Op) :
    runOp s op = s ∨
    ∃ fs2, runOp s op = ScriptState.mk fs2 (s.handles ++ [s.fs.inode_alloc + 1]) ∧
      fs2.inode_alloc = s.fs.inode_alloc + 1 := by
  cases hh : s.handles[op.parent]? with
  | none => exact Or.inl (by simp [runOp, hh])
  | some p =>
    cases hg : s.fs.getNode p with
    | none =>
      cases hd : op.isDir with
      | false => exact Or.inl (by simp [runOp, hh, hd, Fs.new_file, hg])
      | true => exact Or.inl (by simp [runOp, hh, hd, Fs.new_dir, hg])
    | some n =>
      cases n with
      | file a d =>
        cases hd : op.isDir with
        | false => exact Or.inl (by simp [runOp, hh, hd, Fs.new_file, hg])
        | true => exact Or.inl (by simp [runOp, hh, hd, Fs.new_dir, hg])
      | dir a kids =>
        cases hd : op.isDir with
        | false =>
          refine Or.inr ⟨createdFs s.fs p a kids op.name
            (fileNew (s.fs.inode_alloc + 1) op.dat), ?_, rfl⟩
          simp [runOp, hh, hd, new_file_eq _ _ _ _ _ _ hg]
        | true =>
          refine Or.inr ⟨createdFs s.fs p a kids op.name
            (dirNew (s.fs.inode_alloc + 1)), ?_, rfl⟩
          simp [runOp, hh, hd, new_dir_eq _ _ _ _ _ hg]

theorem script_handles (ops : List Op) :
    1 ≤ (runScript ops).fs.inode_alloc ∧
    (∀ h ∈ (runScript ops).handles, h ≤ (runScript ops).fs.inode_alloc) ∧
    (runScript ops).handles.head? = some 1 ∧
    (runScript ops).handles.Pairwise (· < ·) := by
  induction ops using List.reverseRecOn with
  | nil =>
    refine ⟨le_refl 1, ?_, rfl, ?_⟩
    · intro h hh
      simp only [runScript, List.foldl_nil, initState, Fs.new] at hh ⊢
      obtain rfl := List.mem_singleton.mp hh
      exact le_refl 1
    · exact List.pairwise_singleton _ _
  | append_singleton l op ih =>
    obtain ⟨h1, h2, h3, h4⟩ := ih
    rw [runScript_append]
    rcases runOp_cases (runScript l) op with heq | ⟨fs2, heq, ha⟩
    · rw [heq]
      exact ⟨h1, h2, h3, h4⟩
    · rw [heq]
      refine ⟨by simp only []; omega, ?_, ?_, ?_⟩
      · intro h hm
        simp only [] at hm ⊢
        rw [ha]
        rcases List.mem_append.mp hm with hm | hm
        · exact le_trans (h2 h hm) (Nat.le_succ _)
        · obtain rfl := List.mem_singleton.mp hm
          exact le_refl _
      · cases hhs : (runScript l).handles with
        | nil => rw [hhs] at h3; cases h3
        | cons a t => simpa [hhs] using h3
      · refine List.pairwise_append.mpr ⟨h4, List.pairwise_singleton _ _, ?_⟩
        intro x hx y hy
        obtain rfl := List.mem_singleton.mp hy
        have := h2 x hx
        omega

/-!
The claims.  Each claim of the specification is settled by one theorem
below; theorems with hypotheses are accompanied by a witness theorem
applying them at a concrete input.
-/

/-- C1, counterexample to the claim as stated: run the script that creates
a directory `a` under the root twice.  The node created by the first call
sits at handle position 1 and received inode 2, and its creation path is
`["a"]`; but resolving `["a"]` afterwards returns inode 3 (the second
directory overwrote the mapping entry), not inode 2.  So resolving the
exact sequence of names under which a node was created does not, in
general, return a handle referring to that node. -/
theorem creation_path_resolves_cex :
    (runScript [Op.mk true 0 "a" "", Op.mk true 0 "a" ""]).handles[1]? = some 2 ∧
    (runScript [Op.mk true 0 "a" "", Op.mk true 0 "a" ""]).fs.walk
      (creationPath [Op.mk true 0 "a" "", Op.mk true 0 "a" ""] 1) = some 3 ∧
    (some 3 : Option Nat) ≠ some 2 := by
  decide

/-- C1 (amended): for every well-formed script of `create_dir`/`create_file`
calls — each call addresses a directory handle, uses a name that is
non-empty and none of `.`/`..`, and never reuses a child name already
present in its parent — resolving from the root the exact sequence of
names under which a node was created returns that node's handle (the
inode assigned at its creation). -/
theorem creation_path_resolves (ops : List Op)
    (hwf : wfFrom initState ops = true) (i h : Nat)
    (hi : (runScript ops).handles[i]? = some h) :
    (runScript ops).fs.walk (creationPath ops i) = some h := by
  obtain ⟨-, -, -, hw⟩ := script_invariant ops hwf
  obtain ⟨stk, hst⟩ := hw i h hi
  simp [Fs.walk, Fs.walkFrom, hst]

/-- C1 witness: a concrete well-formed script (mkdir `dir1`, then create
file `f1` inside it); the node at handle position 2 got inode 3 and
resolving its creation path returns 3. -/
theorem creation_path_resolves_witness :
    wfFrom initState [Op.mk true 0 "dir1" "", Op.mk false 1 "f1" "HELLO"] = true ∧
    (runScript [Op.mk true 0 "dir1" "", Op.mk false 1 "f1" "HELLO"]).fs.walk
      (creationPath [Op.mk true 0 "dir1" "", Op.mk false 1 "f1" "HELLO"] 2) =
        some 3 :=
  ⟨by decide, creation_path_resolves _ (by decide) 2 3 (by decide)⟩

/-- C2: for every directory handle `start`, resolving `["."]` from `start`
returns `start`, and resolving `[".."]` — whose traversal pushed no
parents, so the call-local parent stack is empty — also returns `start`
unchanged: resolution never ascends above its own starting handle. -/
theorem resolve_dot_dotdot_identity (fs : Fs) (start : Nat) (a : FileAttr)
    (kids : List (String × Nat))
    (hs : fs.getNode start = some (Node.dir a kids)) :
    fs.walkFrom start ["."] = some start ∧ fs.walkFrom start [".."] = some start := by
  constructor <;> simp [Fs.walkFrom, walkGo, hs]

/-- C2 witness: both resolutions at the fresh tree's root handle. -/
theorem resolve_dot_dotdot_identity_witness :
    Fs.new.walkFrom 1 ["."] = some 1 ∧ Fs.new.walkFrom 1 [".."] = some 1 :=
  resolve_dot_dotdot_identity Fs.new 1 (new_attr 1 FileType.directory DIR_PERM 2) []
    (by decide)

/-- C3: for every buffer state and every `n`: with fewer than `n` records
buffered, `take_args n` returns absent and leaves the buffer untouched;
otherwise it removes all buffered records, returns the first `n` of them
in insertion order, and leaves the record count at 0 no matter how many
records existed beyond `n`. -/
theorem take_args_drain_then_truncate (t : Transaction) (n : Nat) :
    (t.args.length < n → t.take_args n = (none, t)) ∧
    (n ≤ t.args.length →
      t.take_args n = (some (t.args.take n), Transaction.mk [] t.resp) ∧
      ((t.take_args n).2).args.length = 0) := by
  constructor
  · intro h
    simp [Transaction.take_args, Nat.not_le.mpr h]
  · intro h
    constructor
    · simp [Transaction.take_args, h]
    · simp [Transaction.take_args, h]

/-- C3 witness: `take_args 2` on one record returns absent and keeps the
record; on three records it returns the first two and drains all three. -/
theorem take_args_drain_then_truncate_witness :
    (Transaction.mk [[0]] []).take_args 2 = (none, Transaction.mk [[0]] []) ∧
    (Transaction.mk [[1], [2], [3]] []).take_args 2 =
      (some [[1], [2]], Transaction.mk [] []) :=
  ⟨(take_args_drain_then_truncate (Transaction.mk [[0]] []) 2).1 (by decide),
   ((take_args_drain_then_truncate (Transaction.mk [[1], [2], [3]] []) 2).2
      (by decide)).1⟩

/-- C4: `arg_mode` is true on a fresh transaction, turns false on the
first `set_resp` that appends at least one byte, is unaffected by a
zero-length `set_resp`, becomes true again once `read_resp` has drained
the response, and in general holds exactly when the response sequence is
empty. -/
theorem arg_mode_tracks_resp (t : Transaction) (dat : List Nat) (n : Nat) :
    Transaction.new.arg_mode = true ∧
    (t.arg_mode = true → dat ≠ [] → (t.set_resp dat).arg_mode = false) ∧
    ((t.set_resp []).arg_mode = t.arg_mode) ∧
    (t.resp.length ≤ n → ((t.read_resp n).2).arg_mode = true) ∧
    (t.arg_mode = true ↔ t.resp = []) := by
  refine ⟨by decide, ?_, ?_, ?_, ?_⟩
  · intro h hd
    simp [Transaction.arg_mode, Transaction.set_resp] at h ⊢
    simp [h, hd]
  · simp [Transaction.arg_mode, Transaction.set_resp]
  · intro h
    simp [Transaction.arg_mode, Transaction.read_resp, Nat.min_eq_right h,
      List.drop_eq_nil_of_le h]
  · simp [Transaction.arg_mode, List.length_eq_zero]

/-- C4 witness: `set_resp` of one byte flips `arg_mode` off; draining a
two-byte response with `read_resp 5` turns it back on. -/
theorem arg_mode_tracks_resp_witness :
    ((Transaction.mk [] []).set_resp [72]).arg_mode = false ∧
    (((Transaction.mk [] [72, 73]).read_resp 5).2).arg_mode = true :=
  ⟨(arg_mode_tracks_resp (Transaction.mk [] []) [72] 0).2.1 (by decide) (by decide),
   (arg_mode_tracks_resp (Transaction.mk [] [72, 73]) [] 5).2.2.2.1 (by decide)⟩

/-- C8: `read_resp n` removes and returns exactly `min n remaining` bytes
from the front of the response, in order, consuming them; after
`set_resp "HELLO"`, three `read_resp 3` calls return `"HEL"`, `"LO"`,
then the empty byte sequence. -/
theorem read_resp_fifo (t : Transaction) (n : Nat) :
    t.read_resp n = (t.resp.take n, Transaction.mk t.args (t.resp.drop n)) ∧
    (t.read_resp n).1.length = min n t.resp.length ∧
    ((Transaction.new.set_resp (strBytes "HELLO")).read_resp 3).1 = strBytes "HEL" ∧
    (((Transaction.new.set_resp (strBytes "HELLO")).read_resp 3).2.read_resp 3).1 =
      strBytes "LO" ∧
    ((((Transaction.new.set_resp (strBytes "HELLO")).read_resp 3).2.read_resp
        3).2.read_resp 3).1 = [] := by
  refine ⟨?_, ?_, by decide, by decide, by decide⟩
  · simp [Transaction.read_resp]
    rcases Nat.le_total n t.resp.length with h | h
    · simp [Nat.min_eq_left h]
    · simp [Nat.min_eq_right h, List.drop_eq_nil_of_le h]
  · simp [Transaction.read_resp]

/-- C9: when the parent handle does not refer to a directory, `new_file`
and `new_dir` return the failure result with the filesystem unchanged —
in particular no inode is consumed and no node is created anywhere. -/
theorem create_nondir_parent_fails (fs : Fs) (p : Nat) (name dat : String)
    (hnd : ∀ a kids, fs.getNode p ≠ some (Node.dir a kids)) :
    fs.new_file p name dat = (none, fs) ∧ fs.new_dir p name = (none, fs) := by
  cases h : fs.getNode p with
  | none => constructor <;> simp [Fs.new_file, Fs.new_dir, h]
  | some n =>
    cases n with
    | dir a kids => exact absurd h (hnd a kids)
    | file a d => constructor <;> simp [Fs.new_file, Fs.new_dir, h]

/-- C9 witness: creating under a file handle (inode 2) fails and leaves
the state untouched. -/
theorem create_nondir_parent_fails_witness :
    (Fs.new.new_file 1 "a" "x").2.new_file 2 "b" "y" =
      (none, (Fs.new.new_file 1 "a" "x").2) ∧
    (Fs.new.new_file 1 "a" "x").2.new_dir 2 "b" =
      (none, (Fs.new.new_file 1 "a" "x").2) :=
  create_nondir_parent_fails (Fs.new.new_file 1 "a" "x").2 2 "b" "y" (by
    intro a kids hcontra
    rw [show (Fs.new.new_file 1 "a" "x").2.getNode 2 = some (fileNew 2 "x") from by
      decide] at hcontra
    simp [fileNew] at hcontra)

/-- C5: raw path strings differing only in duplicate, leading, or trailing
slashes resolve identically on every tree, because segmenting splits on
`/` and discards empty segments. -/
theorem slash_equivalent_paths (fs : Fs) :
    fs.walk (split_path "/dir1/f1") = fs.walk (split_path "dir1/f1") ∧
    fs.walk (split_path "//dir1////f1/") = fs.walk (split_path "dir1/f1") := by
  have h1 : split_path "/dir1/f1" = ["dir1", "f1"] := by decide
  have h2 : split_path "dir1/f1" = ["dir1", "f1"] := by decide
  have h3 : split_path "//dir1////f1/" = ["dir1", "f1"] := by decide
  rw [h1, h2, h3]
  exact ⟨rfl, rfl⟩

/-- C6: creating a child under a name that already maps to a node `h`
succeeds without error and overwrites the mapping entry; the previous
child is only detached: the node behind the held handle `h` is unchanged
afterwards (same inode, type and payload), while the parent now maps the
name to the freshly allocated handle. -/
theorem overwrite_detaches_previous_child (fs : Fs) (p h : Nat) (a : FileAttr)
    (kids : List (String × Nat)) (name dat : String) (nh : Node)
    (hp : fs.getNode p = some (Node.dir a kids))
    (hk : kidsGet kids name = some h)
    (hv : fs.getNode h = some nh)
    (hb : h ≤ fs.inode_alloc) (hbp : p ≤ fs.inode_alloc) (hne : h ≠ p) :
    (∃ fs2, fs.new_file p name dat = (some (fs.inode_alloc + 1), fs2) ∧
      fs2.getNode h = some nh ∧ fs.inode_alloc + 1 ≠ h ∧
      ∃ kids2, fs2.getNode p = some (Node.dir a kids2) ∧
        kidsGet kids2 name = some (fs.inode_alloc + 1)) ∧
    (∃ fs2, fs.new_dir p name = (some (fs.inode_alloc + 1), fs2) ∧
      fs2.getNode h = some nh ∧ fs.inode_alloc + 1 ≠ h ∧
      ∃ kids2, fs2.getNode p = some (Node.dir a kids2) ∧
        kidsGet kids2 name = some (fs.inode_alloc + 1)) := by
  have hneq : fs.inode_alloc + 1 ≠ h := by omega
  have h1 : h ≠ fs.inode_alloc + 1 := by omega
  have hpneq : p ≠ fs.inode_alloc + 1 := by omega
  constructor
  · refine ⟨Fs.mk (fs.inode_alloc + 1) fs.root
      (arenaSet (arenaSet fs.nodes p
          (Node.dir a (kidsInsert kids name (fs.inode_alloc + 1))))
        (fs.inode_alloc + 1) (fileNew (fs.inode_alloc + 1) dat)),
      ?_, ?_, hneq, kidsInsert kids name (fs.inode_alloc + 1), ?_, ?_⟩
    · simp [Fs.new_file, hp]
    · simp [Fs.getNode, arenaGet_set, h1, hne]
      exact hv
    · simp [Fs.getNode, arenaGet_set, hpneq]
    · simp [kidsGet_insert]
  · refine ⟨Fs.mk (fs.inode_alloc + 1) fs.root
      (arenaSet (arenaSet fs.nodes p
          (Node.dir a (kidsInsert kids name (fs.inode_alloc + 1))))
        (fs.inode_alloc + 1) (dirNew (fs.inode_alloc + 1))),
      ?_, ?_, hneq, kidsInsert kids name (fs.inode_alloc + 1), ?_, ?_⟩
    · simp [Fs.new_dir, hp]
    · simp [Fs.getNode, arenaGet_set, h1, hne]
      exact hv
    · simp [Fs.getNode, arenaGet_set, hpneq]
    · simp [kidsGet_insert]

/-- C6 witness: overwrite file `a` (inode 2, payload `OLD`); the old
handle still yields the untouched node. -/
theorem overwrite_detaches_previous_child_witness :
    ((Fs.new.new_file 1 "a" "OLD").2.new_file 1 "a" "NEW").2.getNode 2 =
      some (fileNew 2 "OLD") := by
  obtain ⟨⟨fs2, heq, hpres, _, _⟩, _⟩ :=
    overwrite_detaches_previous_child (Fs.new.new_file 1 "a" "OLD").2 1 2
      (new_attr 1 FileType.directory DIR_PERM 2) [("a", 2)] "a" "NEW"
      (fileNew 2 "OLD") (by decide) (by decide) (by decide) (by decide)
      (by decide) (by decide)
  rw [heq]
  exact hpres

/-- C7: a fresh tree holds only a root directory with inode 1 (no other
handle resolves to a node) and the allocator is primed so the next
allocated inode is 2; the allocator only ever increments, and over every
script of creation calls the handles are strictly increasing — hence the
assigned inodes are pairwise distinct, greater than the root's 1, and
never reused for the lifetime of the tree, even after a node is detached
by an overwrite. -/
theorem inode_allocation_spec :
    (∃ a, Fs.new.getNode Fs.new.root = some (Node.dir a []) ∧ a.ino = 1 ∧
      a.kind = FileType.directory) ∧
    (∀ j, j ≠ Fs.new.root → Fs.new.getNode j = none) ∧
    (Fs.new.new_dir Fs.new.root "d").1 = some 2 ∧
    (∀ fs : Fs, ∀ p : Nat, ∀ name dat : String,
      fs.inode_alloc ≤ (fs.new_file p name dat).2.inode_alloc ∧
      fs.inode_alloc ≤ (fs.new_dir p name).2.inode_alloc) ∧
    (∀ ops, (runScript ops).handles.head? = some 1 ∧
      (runScript ops).handles.Pairwise (· < ·) ∧
      ∀ h ∈ (runScript ops).handles.tail, 1 < h) := by
  refine ⟨⟨new_attr 1 FileType.directory DIR_PERM 2, by decide, rfl, rfl⟩,
    ?_, by decide, ?_, ?_⟩
  · intro j hj
    have hj1 : j ≠ 1 := by simpa [Fs.new] using hj
    have hb : ((1 : Nat) == j) = false := beq_eq_false_iff_ne.mpr (Ne.symm hj1)
    simp [Fs.new, Fs.getNode, arenaGet, List.find?, dirNew, hb]
  · intro fs p name dat
    constructor
    · rcases (create_alloc_cases fs p name dat).1 with hc | ⟨-, hc⟩
      · rw [hc]
      · rw [hc]
        omega
    · rcases (create_alloc_cases fs p name dat).2 with hc | ⟨-, hc⟩
      · rw [hc]
      · rw [hc]
        omega
  · intro ops
    obtain ⟨-, h2, h3, h4⟩ := script_handles ops
    refine ⟨h3, h4, ?_⟩
    intro h hh
    cases hhs : (runScript ops).handles with
    | nil => rw [hhs] at h3; cases h3
    | cons a t =>
      rw [hhs] at h3 h4 hh
      obtain rfl : a = 1 := by simpa using h3
      simp only [List.tail_cons] at hh
      exact (List.pairwise_cons.mp h4).1 h hh

/-- C7 witness: in the two-call script the second created node got inode
3, which sits after the root in the handle list and exceeds 1. -/
theorem inode_allocation_spec_witness :
    3 ∈ (runScript [Op.mk true 0 "a" "", Op.mk false 0 "b" "x"]).handles.tail ∧
    (1 : Nat) < 3 :=
  ⟨by decide,
   (inode_allocation_spec.2.2.2.2 [Op.mk true 0 "a" "", Op.mk false 0 "b" "x"]).2.2 3
     (by decide)⟩

/-- C10: `take_args 0` never returns absent: on every buffer state it
returns the empty record sequence and still drains all buffered argument
records, leaving the record count at 0. -/
theorem take_args_zero_succeeds (t : Transaction) :
    t.take_args 0 = (some [], Transaction.mk [] t.resp) := by
  simp [Transaction.take_args]
